import Mathlib

/-!
# Verification of the `system_optimizer.file_manager` scan core

Shallow embedding of `src/system_optimizer/file_manager.py`:

* `DiskScanner.scan` — bounded top-K large-file scan using a min-heap of
  `(size, path)` tuples (`heapq` in the source).
* `FileSearch.search` — conjunctive predicate filter over the walked files.
* `delete_files` — per-path deletion with per-path error recovery.

The filesystem walk (`_walk_paths`, built on `os.walk`) is modelled by a
list of candidates: each candidate carries the full path string that
`Path(dirpath) / filename` would produce, together with the outcome of the
subsequent `path.stat()` call.  Python raising an exception is modelled by
`Except Unit`: the source's `except (PermissionError, FileNotFoundError)`
clause corresponds to the `StatResult.denied` constructor (caught, entry
skipped) while any other `OSError` from `stat` (`StatResult.oserror`) is
not caught and aborts the whole call (`Except.error ()`).

The `heapq` heap is represented by the sorted (ascending) list of its
contents.  `heapq.heappush` inserts an element and `heapq.heappop` removes
a minimal element, so up to the multiset of contents — which is all the
source ever observes, since the final step is `sorted(heap, reverse=True)`
— the heap is exactly an ascending sorted list with `List.orderedInsert`
as push and `List.tail` as pop-min.  Python orders the `(size, path)`
tuples lexicographically: first by size, and on equal sizes by the path
(`pathlib` paths compare as their strings, lexicographically by code
point), which is `entryLE` below.
-/

/-- Result of the `path.stat()` call on one walked file. -/
inductive StatResult where
  /-- `stat` succeeded and reported `st_size = size`. -/
  | ok (size : Nat)
  /-- `stat` raised `PermissionError` or `FileNotFoundError` (caught by the source). -/
  | denied
  /-- `stat` raised some other `OSError` (not caught by the source). -/
  | oserror
deriving DecidableEq, Repr

/-- One file yielded by `_walk_paths`: its full path string and what `stat` does on it. -/
structure Candidate where
  path : String
  stat : StatResult
deriving DecidableEq, Repr

/-- `FileInfo` dataclass from `file_manager.py` (a path and a size). -/
structure FileInfo where
  path : String
  size : Nat
deriving DecidableEq, Repr

/-- A heap entry: the Python tuple `(size, path)`. -/
abbrev Entry := Nat × String

/-- Python's `<=` on strings: lexicographic comparison by code point. -/
def charsLe : List Char → List Char → Bool
  | [], _ => true
  | _ :: _, [] => false
  | a :: as, b :: bs =>
      if a < b then true else if b < a then false else charsLe as bs

/-- Path comparison: `pathlib` paths compare as their path strings. -/
def pathLe (a b : String) : Bool := charsLe a.data b.data

/-- Python's `<=` on `(size, path)` tuples: lexicographic, size first,
then the path on equal sizes. -/
def entryLeb (a b : Entry) : Bool :=
  if a.1 < b.1 then true else if b.1 < a.1 then false else pathLe a.2 b.2

/-- The heap order as a relation. -/
def entryLE (a b : Entry) : Prop := entryLeb a b = true

instance : DecidableRel entryLE := fun a b => instDecidableEqBool (entryLeb a b) true

/-- The scan loop of `DiskScanner.scan`: for each walked path, `stat` it
(skipping on `PermissionError` / `FileNotFoundError`, aborting on any other
`OSError`), push `(size, path)` on the heap, and pop the minimum when the
heap exceeds `max_results`.  The heap is its ascending sorted contents, so
push is `orderedInsert` and pop-min is `tail`. -/
def scanLoop (K : Nat) : List Candidate → List Entry → Except Unit (List Entry)
  | [], heap => .ok heap
  | c :: rest, heap =>
      match c.stat with
      | .ok s =>
          let h := heap.orderedInsert entryLE (s, c.path)
          scanLoop K rest (if K < h.length then h.tail else h)
      | .denied => scanLoop K rest heap
      | .oserror => .error ()

/-- The heap contents at the end of `DiskScanner.scan`'s loop. -/
def scanHeap (K : Nat) (cs : List Candidate) : Except Unit (List Entry) :=
  scanLoop K cs []

/-- `DiskScanner.scan` with `max_results = K` over the walked candidates:
run the heap loop, then `sorted(heap, reverse=True)` (the reverse of the
ascending heap) converted to `FileInfo` records. -/
def DiskScanner.scan (K : Nat) (cs : List Candidate) : Except Unit (List FileInfo) :=
  (scanHeap K cs).map fun h => h.reverse.map fun e => ⟨e.2, e.1⟩

/-- `needle in hay` on Python strings: substring containment. -/
def strContainsSub (hay needle : String) : Bool :=
  decide (needle.data <:+: hay.data)

/-- `hay.endswith(s)` on Python strings: suffix test. -/
def strEndsWith (hay s : String) : Bool :=
  decide (s.data <:+ hay.data)

/-- `str.lower()` on the ASCII strings the filters compare (mapping
`Char.toLower` over the characters). -/
def strLower (s : String) : String := ⟨s.data.map Char.toLower⟩

/-- Characters of the final path component: everything after the last
`'/'`. -/
def baseNameAux (acc : List Char) : List Char → List Char
  | [] => acc
  | c :: cs => if c = '/' then baseNameAux [] cs else baseNameAux (acc ++ [c]) cs

/-- `path.name` in `pathlib`: the final path component (base name). -/
def baseName (p : String) : String := ⟨baseNameAux [] p.data⟩

/-- `FileSearch.search(name, extension, min_size)` over the walked
candidates.  Mirrors the source's filter order: name substring test,
extension suffix test, then `stat` (skip on denied, abort on other
`OSError`), then the minimum-size test; matches are appended in traversal
order. -/
def FileSearch.search (name extension : String) (minSize : Nat) :
    List Candidate → Except Unit (List FileInfo)
  | [] => .ok []
  | c :: rest =>
      if name ≠ "" ∧ strContainsSub (strLower (baseName c.path)) (strLower name) = false then
        FileSearch.search name extension minSize rest
      else if extension ≠ "" ∧
          strEndsWith (strLower (baseName c.path)) (strLower extension) = false then
        FileSearch.search name extension minSize rest
      else
        match c.stat with
        | .denied => FileSearch.search name extension minSize rest
        | .oserror => .error ()
        | .ok s =>
            if s < minSize then FileSearch.search name extension minSize rest
            else (FileSearch.search name extension minSize rest).map
              fun r => ⟨c.path, s⟩ :: r

/-- Result of `path.unlink()` on one path passed to `delete_files`. -/
inductive UnlinkResult where
  /-- Removal succeeded. -/
  | ok
  /-- `FileNotFoundError` (caught). -/
  | notFound
  /-- `PermissionError` (caught). -/
  | permission
  /-- Any other `OSError` (also caught: the clause lists `OSError` itself). -/
  | otherOS
deriving DecidableEq, Repr

/-- One path handed to `delete_files`, with the outcome its `unlink()` call would have. -/
structure DeleteCandidate where
  path : String
  res : UnlinkResult
deriving DecidableEq, Repr

/-- `delete_files`: attempt each removal independently, collecting the
paths whose `unlink` succeeded; every listed error class is caught per
path, so the function always returns normally. -/
def delete_files : List DeleteCandidate → List String
  | [] => []
  | c :: rest =>
      if c.res = .ok then c.path :: delete_files rest else delete_files rest

/-- Does this path lie strictly under the given root directory?  Models
membership in the `os.walk(root)` enumeration: every yielded path is
`Path(dirpath) / filename` with `dirpath` inside the root. -/
def isUnder (root p : String) : Bool :=
  decide ((root ++ "/").data <+: p.data)

/-- `_walk_paths` against a whole-filesystem model (the list of all files
anywhere, as candidates): `os.walk(root)` yields exactly the files under
`root`, and yields nothing — rather than raising — when `root` does not
exist, since a nonexistent root has no files beneath it. -/
def walk_paths (root : String) (fs : List Candidate) : List Candidate :=
  fs.filter fun c => isUnder root c.path

/-- `DiskScanner(root, K).scan()` against the whole-filesystem model. -/
def DiskScanner.scanFS (root : String) (K : Nat) (fs : List Candidate) :
    Except Unit (List FileInfo) :=
  DiskScanner.scan K (walk_paths root fs)

/-- `FileSearch(root).search(...)` against the whole-filesystem model. -/
def FileSearch.searchFS (root name extension : String) (minSize : Nat)
    (fs : List Candidate) : Except Unit (List FileInfo) :=
  FileSearch.search name extension minSize (walk_paths root fs)

/-! ## Derived notions used to state the claims -/

/-- Did `stat` succeed on this candidate? -/
def statOk : StatResult → Bool
  | .ok _ => true
  | _ => false

/-- The `(size, path)` tuples of the candidates whose `stat` succeeds, in
traversal order: the elements the scan loop actually pushes. -/
def okPairs (cs : List Candidate) : List Entry :=
  cs.filterMap fun c =>
    match c.stat with
    | .ok s => some (s, c.path)
    | _ => none

/-- The sizes of all candidates whose `stat` succeeds. -/
def okSizes (cs : List Candidate) : List Nat :=
  (okPairs cs).map Prod.fst

/-- Does some candidate's `stat` raise an uncaught `OSError`? -/
def hasOsError (cs : List Candidate) : Bool :=
  cs.any fun c => c.stat = .oserror

/-- All entries sorted ascending by the heap order. -/
def sortedAsc (es : List Entry) : List Entry :=
  List.insertionSort entryLE es

/-- The `K` largest entries, as the tail of the full ascending sort. -/
def topKAsc (K : Nat) (es : List Entry) : List Entry :=
  (sortedAsc es).drop (es.length - K)

/-- Full descending sort of a list of sizes (the comparison target named
by the top-K correctness property). -/
def sortDescNat (l : List Nat) : List Nat :=
  List.insertionSort (fun a b => b ≤ a) l

/-- Full descending sort of a list of entries. -/
def sortDescE (es : List Entry) : List Entry :=
  List.insertionSort (fun a b => entryLE b a) es

/-- The `(size, path)` tuple of a returned `FileInfo` record. -/
def entryOfInfo (f : FileInfo) : Entry := (f.size, f.path)

/-- The per-candidate filter of `FileSearch.search`, as one function:
`some` exactly when the candidate is kept, with the `FileInfo` it
contributes. -/
def searchMatch (name extension : String) (minSize : Nat) (c : Candidate) :
    Option FileInfo :=
  if name ≠ "" ∧ strContainsSub (strLower (baseName c.path)) (strLower name) = false then none
  else if extension ≠ "" ∧
      strEndsWith (strLower (baseName c.path)) (strLower extension) = false then none
  else
    match c.stat with
    | .denied => none
    | .oserror => none
    | .ok s => if s < minSize then none else some ⟨c.path, s⟩

/-! ## The heap order is a total order -/

theorem charsLe_cons {a b : Char} {as bs : List Char} :
    charsLe (a :: as) (b :: bs) = true ↔ a < b ∨ (a = b ∧ charsLe as bs = true) := by
  by_cases hab : a < b
  · simp [charsLe, hab]
  · by_cases hba : b < a
    · have : a ≠ b := fun h => absurd (h ▸ hba) (lt_irrefl a)
      simp [charsLe, hab, hba, this]
    · have : a = b := le_antisymm (not_lt.mp hba) (not_lt.mp hab)
      simp [charsLe, hab, hba, this]

theorem charsLe_total : ∀ x y, charsLe x y = true ∨ charsLe y x = true
  | [], _ => Or.inl rfl
  | _ :: _, [] => Or.inr rfl
  | a :: as, b :: bs => by
    rcases lt_trichotomy a b with h | h | h
    · exact Or.inl (charsLe_cons.mpr (Or.inl h))
    · rcases charsLe_total as bs with h' | h'
      · exact Or.inl (charsLe_cons.mpr (Or.inr ⟨h, h'⟩))
      · exact Or.inr (charsLe_cons.mpr (Or.inr ⟨h.symm, h'⟩))
    · exact Or.inr (charsLe_cons.mpr (Or.inl h))

theorem charsLe_trans : ∀ x y z, charsLe x y = true → charsLe y z = true →
    charsLe x z = true
  | [], _, _, _, _ => rfl
  | _ :: _, [], _, h1, _ => by simp [charsLe] at h1
  | _ :: _, _ :: _, [], _, h2 => by simp [charsLe] at h2
  | a :: as, b :: bs, c :: cs, h1, h2 => by
    rcases charsLe_cons.mp h1 with ha | ⟨rfl, ha⟩ <;>
      rcases charsLe_cons.mp h2 with hb | ⟨rfl, hb⟩
    · exact charsLe_cons.mpr (Or.inl (lt_trans ha hb))
    · exact charsLe_cons.mpr (Or.inl ha)
    · exact charsLe_cons.mpr (Or.inl hb)
    · exact charsLe_cons.mpr (Or.inr ⟨rfl, charsLe_trans as bs cs ha hb⟩)

theorem charsLe_antisymm : ∀ x y, charsLe x y = true → charsLe y x = true → x = y
  | [], [], _, _ => rfl
  | [], _ :: _, _, h2 => by simp [charsLe] at h2
  | _ :: _, [], h1, _ => by simp [charsLe] at h1
  | a :: as, b :: bs, h1, h2 => by
    rcases charsLe_cons.mp h1 with ha | ⟨rfl, ha⟩
    · rcases charsLe_cons.mp h2 with hb | ⟨hb, -⟩
      · exact absurd hb (lt_asymm ha)
      · exact absurd (hb ▸ ha) (lt_irrefl b)
    · rcases charsLe_cons.mp h2 with hb | ⟨-, hb⟩
      · exact absurd hb (lt_irrefl a)
      · rw [charsLe_antisymm as bs ha hb]

theorem pathLe_total (a b : String) : pathLe a b = true ∨ pathLe b a = true :=
  charsLe_total a.data b.data

theorem pathLe_trans {a b c : String} (h1 : pathLe a b = true) (h2 : pathLe b c = true) :
    pathLe a c = true :=
  charsLe_trans a.data b.data c.data h1 h2

theorem pathLe_antisymm {a b : String} (h1 : pathLe a b = true) (h2 : pathLe b a = true) :
    a = b := by
  cases a; cases b
  exact congrArg String.mk (charsLe_antisymm _ _ h1 h2)

theorem entryLE_iff {a b : Entry} :
    entryLE a b ↔ a.1 < b.1 ∨ (a.1 = b.1 ∧ pathLe a.2 b.2 = true) := by
  by_cases hab : a.1 < b.1
  · simp [entryLE, entryLeb, hab]
  · by_cases hba : b.1 < a.1
    · have : a.1 ≠ b.1 := by omega
      simp [entryLE, entryLeb, hab, hba, this]
    · have : a.1 = b.1 := by omega
      simp [entryLE, entryLeb, hab, hba, this]

instance : IsTotal Entry entryLE where
  total a b := by
    rcases lt_trichotomy a.1 b.1 with h | h | h
    · exact Or.inl (entryLE_iff.mpr (Or.inl h))
    · rcases pathLe_total a.2 b.2 with h' | h'
      · exact Or.inl (entryLE_iff.mpr (Or.inr ⟨h, h'⟩))
      · exact Or.inr (entryLE_iff.mpr (Or.inr ⟨h.symm, h'⟩))
    · exact Or.inr (entryLE_iff.mpr (Or.inl h))

instance : IsTrans Entry entryLE where
  trans a b c h1 h2 := by
    rcases entryLE_iff.mp h1 with h1 | ⟨he1, h1⟩ <;>
      rcases entryLE_iff.mp h2 with h2 | ⟨he2, h2⟩
    · exact entryLE_iff.mpr (Or.inl (lt_trans h1 h2))
    · exact entryLE_iff.mpr (Or.inl (he2 ▸ h1))
    · exact entryLE_iff.mpr (Or.inl (he1 ▸ h2))
    · exact entryLE_iff.mpr (Or.inr ⟨he1.trans he2, pathLe_trans h1 h2⟩)

instance : IsAntisymm Entry entryLE where
  antisymm a b h1 h2 := by
    rcases entryLE_iff.mp h1 with h1 | ⟨he1, h1⟩
    · rcases entryLE_iff.mp h2 with h2 | ⟨he2, -⟩
      · exact absurd h2 (lt_asymm h1)
      · omega
    · rcases entryLE_iff.mp h2 with h2 | ⟨-, h2⟩
      · omega
      · have := pathLe_antisymm h1 h2
        exact Prod.ext he1 this

instance : IsTotal Entry (fun a b => entryLE b a) :=
  ⟨fun a b => Or.symm (total_of entryLE a b)⟩

instance : IsTrans Entry (fun a b => entryLE b a) :=
  ⟨fun _ _ _ h1 h2 => trans_of entryLE h2 h1⟩

instance : IsAntisymm Entry (fun a b => entryLE b a) :=
  ⟨fun _ _ h1 h2 => antisymm h2 h1⟩

instance : IsTotal Nat (fun a b => b ≤ a) := ⟨fun a b => Nat.le_total b a⟩

instance : IsTrans Nat (fun a b => b ≤ a) := ⟨fun _ _ _ h1 h2 => le_trans h2 h1⟩

instance : IsAntisymm Nat (fun a b => b ≤ a) := ⟨fun _ _ h1 h2 => le_antisymm h2 h1⟩

/-! ## Sorting toolkit -/

theorem sortedAsc_sorted (es : List Entry) : List.Sorted entryLE (sortedAsc es) :=
  List.sorted_insertionSort entryLE es

theorem sortedAsc_perm (es : List Entry) : List.Perm (sortedAsc es) es :=
  List.perm_insertionSort entryLE es

theorem sortedAsc_congr {es es' : List Entry} (h : List.Perm es es') :
    sortedAsc es = sortedAsc es' :=
  List.eq_of_perm_of_sorted ((sortedAsc_perm es).trans (h.trans (sortedAsc_perm es').symm))
    (sortedAsc_sorted es) (sortedAsc_sorted es')

theorem sortedAsc_eq_self {h : List Entry} (hs : List.Sorted entryLE h) :
    sortedAsc h = h :=
  List.eq_of_perm_of_sorted (sortedAsc_perm h) (sortedAsc_sorted h) hs

theorem topKAsc_congr {K : Nat} {es es' : List Entry} (h : List.Perm es es') :
    topKAsc K es = topKAsc K es' := by
  unfold topKAsc
  rw [sortedAsc_congr h, h.length_eq]

theorem topKAsc_of_sorted_le {K : Nat} {h : List Entry}
    (hs : List.Sorted entryLE h) (hlen : h.length ≤ K) : topKAsc K h = h := by
  unfold topKAsc
  rw [sortedAsc_eq_self hs]
  have hz : h.length - K = 0 := by omega
  rw [hz, List.drop_zero]

theorem topKAsc_length (K : Nat) (es : List Entry) :
    (topKAsc K es).length = min K es.length := by
  unfold topKAsc sortedAsc
  rw [List.length_drop, List.length_insertionSort]
  omega

/-- Inserting an element into a list that already holds at least `K`
elements not below it does not change the last `K` elements. -/
theorem drop_orderedInsert (K : Nat) (e : Entry) :
    ∀ s : List Entry, K ≤ s.countP (fun x => entryLeb e x) →
      (s.orderedInsert entryLE e).drop (s.length + 1 - K) = s.drop (s.length - K)
  | [], hK => by
    have hz : K = 0 := Nat.le_zero.mp (by simpa [List.countP_nil] using hK)
    simp [hz, List.orderedInsert]
  | b :: s, hK => by
    have hKlen : K ≤ s.length + 1 :=
      le_trans hK (le_trans (List.countP_le_length _) (by simp))
    rw [List.orderedInsert]
    by_cases he : entryLE e b
    · rw [if_pos he]
      have h2 : (b :: s).length + 1 - K = ((b :: s).length - K) + 1 := by
        simp only [List.length_cons]; omega
      rw [h2, List.drop_succ_cons]
    · rw [if_neg he]
      have hcount : K ≤ s.countP (fun x => entryLeb e x) := by
        have hfalse : entryLeb e b = false := by
          simpa [entryLE] using he
        rwa [List.countP_cons, hfalse] at hK
      have hKs : K ≤ s.length := le_trans hcount (List.countP_le_length _)
      have h2 : (b :: s).length + 1 - K = (s.length + 1 - K) + 1 := by
        simp only [List.length_cons]; omega
      have h3 : (b :: s).length - K = (s.length - K) + 1 := by
        simp only [List.length_cons]; omega
      rw [h2, h3, List.drop_succ_cons, List.drop_succ_cons]
      exact drop_orderedInsert K e s hcount

/-- Removing the minimum of a sorted list of more than `K` elements does
not change its last `K` elements, whatever else is appended. -/
theorem topKAsc_cons_min {K : Nat} {m : Entry} {t : List Entry}
    (hs : List.Sorted entryLE (m :: t)) (hK : K ≤ t.length) (rest : List Entry) :
    topKAsc K (m :: (t ++ rest)) = topKAsc K (t ++ rest) := by
  set s := sortedAsc (t ++ rest) with hsdef
  have hslen : s.length = (t ++ rest).length := (sortedAsc_perm _).length_eq
  have hins : sortedAsc (m :: (t ++ rest)) = s.orderedInsert entryLE m := by
    refine List.eq_of_perm_of_sorted ?_ (sortedAsc_sorted _)
      (List.Sorted.orderedInsert _ _ (sortedAsc_sorted _))
    exact (sortedAsc_perm _).trans
      (((sortedAsc_perm _).symm.cons m).trans (List.perm_orderedInsert _ _ _).symm)
  have hcount : K ≤ s.countP (fun x => entryLeb m x) := by
    have h1 : s.countP (fun x => entryLeb m x) = (t ++ rest).countP (fun x => entryLeb m x) :=
      (sortedAsc_perm _).countP_eq _
    have h2 : t.countP (fun x => entryLeb m x) = t.length := by
      rw [List.countP_eq_length]
      intro a ha
      exact List.rel_of_sorted_cons hs a ha
    rw [h1, List.countP_append]
    omega
  unfold topKAsc
  rw [hins, ← hsdef]
  have hl1 : (m :: (t ++ rest)).length - K = s.length + 1 - K := by
    simp only [List.length_cons]; omega
  rw [hl1, drop_orderedInsert K m s hcount, hslen]

/-! ## Characterization of the scan loop -/

theorem okPairs_nil : okPairs [] = [] := rfl

theorem okPairs_cons (c : Candidate) (cs : List Candidate) :
    okPairs (c :: cs) =
      match c.stat with
      | .ok s => (s, c.path) :: okPairs cs
      | _ => okPairs cs := by
  cases h : c.stat <;> simp [okPairs, List.filterMap_cons, h]

theorem hasOsError_nil : hasOsError [] = false := rfl

theorem hasOsError_cons (c : Candidate) (cs : List Candidate) :
    hasOsError (c :: cs) = (decide (c.stat = .oserror) || hasOsError cs) := by
  simp [hasOsError]

/-- The scan loop, started from any sorted heap not above capacity,
aborts exactly when some remaining candidate's `stat` raises an uncaught
`OSError`, and otherwise ends with the `K` largest of the heap's entries
together with the remaining successfully stat-ed entries. -/
theorem scanLoop_eq (K : Nat) (cs : List Candidate) :
    ∀ h : List Entry, List.Sorted entryLE h → h.length ≤ K →
      scanLoop K cs h =
        if hasOsError cs then .error () else .ok (topKAsc K (h ++ okPairs cs)) := by
  induction cs with
  | nil =>
    intro h hs hlen
    rw [scanLoop, hasOsError_nil, okPairs_nil, List.append_nil, if_neg Bool.false_ne_true,
      topKAsc_of_sorted_le hs hlen]
  | cons c rest ih =>
    intro h hs hlen
    cases hstat : c.stat with
    | ok s =>
      have hsort' : List.Sorted entryLE (h.orderedInsert entryLE (s, c.path)) :=
        List.Sorted.orderedInsert _ _ hs
      have hlen' : (h.orderedInsert entryLE (s, c.path)).length = h.length + 1 :=
        List.orderedInsert_length entryLE h _
      have hperm : List.Perm (h.orderedInsert entryLE (s, c.path) ++ okPairs rest)
          (h ++ (s, c.path) :: okPairs rest) := by
        refine ((List.perm_orderedInsert entryLE _ h).append_right _).trans ?_
        exact List.perm_middle.symm
      have hrhs : (if hasOsError (c :: rest) then (Except.error () : Except Unit (List Entry))
            else .ok (topKAsc K (h ++ okPairs (c :: rest)))) =
          if hasOsError rest then .error ()
            else .ok (topKAsc K (h ++ (s, c.path) :: okPairs rest)) := by
        rw [hasOsError_cons, okPairs_cons, hstat]
        simp
      rw [hrhs]
      show scanLoop K (c :: rest) h = _
      rw [scanLoop, hstat]
      simp only []
      by_cases hpop : K < (h.orderedInsert entryLE (s, c.path)).length
      · rw [if_pos hpop]
        have hhK : h.length = K := by omega
        cases hcons : h.orderedInsert entryLE (s, c.path) with
        | nil => rw [hcons] at hlen'; simp at hlen'
        | cons m t =>
          have hsmt : List.Sorted entryLE (m :: t) := hcons ▸ hsort'
          have htlen : t.length = K := by
            rw [hcons] at hlen'; simp at hlen'; omega
          rw [List.tail_cons]
          rw [ih t hsmt.of_cons (le_of_eq htlen)]
          have heq : topKAsc K (t ++ okPairs rest) =
              topKAsc K (h ++ (s, c.path) :: okPairs rest) := by
            rw [← topKAsc_cons_min hsmt (le_of_eq htlen.symm) (okPairs rest)]
            have : m :: (t ++ okPairs rest) = (m :: t) ++ okPairs rest := rfl
            rw [this, ← hcons]
            exact topKAsc_congr hperm
          rw [heq]
      · rw [if_neg hpop]
        rw [ih _ hsort' (by omega)]
        rw [topKAsc_congr hperm]
    | denied =>
      rw [scanLoop, hstat]
      rw [ih h hs hlen]
      rw [hasOsError_cons, okPairs_cons, hstat]
      simp
    | oserror =>
      rw [scanLoop, hstat]
      rw [hasOsError_cons, hstat]
      simp

/-- The final heap of `DiskScanner.scan`. -/
theorem scanHeap_eq (K : Nat) (cs : List Candidate) :
    scanHeap K cs =
      if hasOsError cs then .error () else .ok (topKAsc K (okPairs cs)) := by
  have := scanLoop_eq K cs [] (List.sorted_nil) (Nat.zero_le K)
  simpa [scanHeap] using this

/-! ## The scan result as a function of the stat-ed entries -/

theorem scan_ok_noError {K : Nat} {cs : List Candidate} {r : List FileInfo}
    (h : DiskScanner.scan K cs = .ok r) : hasOsError cs = false := by
  unfold DiskScanner.scan at h
  rw [scanHeap_eq] at h
  by_cases he : hasOsError cs
  · rw [if_pos he] at h
    simp [Except.map] at h
  · exact Bool.eq_false_iff.mpr he

theorem scan_result_eq {K : Nat} {cs : List Candidate} {r : List FileInfo}
    (h : DiskScanner.scan K cs = .ok r) :
    r = (topKAsc K (okPairs cs)).reverse.map fun e => ⟨e.2, e.1⟩ := by
  have hne := scan_ok_noError h
  unfold DiskScanner.scan at h
  rw [scanHeap_eq, hne] at h
  rw [if_neg Bool.false_ne_true] at h
  simpa [Except.map] using h.symm

theorem scan_error_iff {K : Nat} {cs : List Candidate} :
    DiskScanner.scan K cs = .error () ↔ hasOsError cs = true := by
  unfold DiskScanner.scan
  rw [scanHeap_eq]
  by_cases he : hasOsError cs <;> simp [he, Except.map]

theorem entryLE_fst_le {a b : Entry} (h : entryLE a b) : a.1 ≤ b.1 := by
  rcases entryLE_iff.mp h with h | ⟨h, -⟩
  · exact le_of_lt h
  · exact le_of_eq h

/-- The reverse of the ascending sort is the descending sort. -/
theorem reverse_sortedAsc (es : List Entry) :
    (sortedAsc es).reverse = sortDescE es := by
  refine List.eq_of_perm_of_sorted ?_ ?_ (List.sorted_insertionSort _ es)
  · exact ((List.reverse_perm _).trans (sortedAsc_perm es)).trans
      (List.perm_insertionSort _ es).symm
  · exact List.pairwise_reverse.mpr (sortedAsc_sorted es)

/-- Sizes in the reversed ascending sort: the descending sort of the sizes. -/
theorem map_fst_reverse_sortedAsc (es : List Entry) :
    ((sortedAsc es).reverse).map Prod.fst = sortDescNat (es.map Prod.fst) := by
  refine List.eq_of_perm_of_sorted ?_ ?_ (List.sorted_insertionSort _ _)
  · exact (((List.reverse_perm _).trans (sortedAsc_perm es)).map _).trans
      (List.perm_insertionSort _ _).symm
  · refine List.pairwise_map.mpr ?_
    refine List.pairwise_reverse.mpr ?_
    exact (sortedAsc_sorted es).imp fun h => entryLE_fst_le h

/-! ## Claims -/

/-- C1: for every walked root contents and every `K`, the sizes of the
`FileInfo` records returned by `DiskScanner.scan` with `max_results = K`
are exactly the first `K` elements of the full descending sort of the
sizes of all candidates for which `stat` succeeds. -/
theorem scan_sizes_are_topK (K : Nat) (cs : List Candidate) (r : List FileInfo)
    (h : DiskScanner.scan K cs = .ok r) :
    r.map FileInfo.size = (sortDescNat (okSizes cs)).take K := by
  have hr := scan_result_eq h
  subst hr
  rw [List.map_map]
  have hcomp : (FileInfo.size ∘ fun e : Entry => (⟨e.2, e.1⟩ : FileInfo)) = Prod.fst := rfl
  rw [hcomp]
  unfold topKAsc
  rw [List.reverse_drop, List.map_take, map_fst_reverse_sortedAsc]
  have hlen : (sortedAsc (okPairs cs)).length = (okPairs cs).length :=
    (sortedAsc_perm _).length_eq
  rw [hlen]
  have hsizes : okSizes cs = (okPairs cs).map Prod.fst := rfl
  rw [← hsizes]
  have hidx : (okPairs cs).length - ((okPairs cs).length - K) = min K (okPairs cs).length := by
    omega
  rw [hidx]
  by_cases hK : K ≤ (okPairs cs).length
  · rw [min_eq_left hK]
  · have hlen2 : (sortDescNat (okSizes cs)).length = (okPairs cs).length := by
      unfold sortDescNat
      rw [List.length_insertionSort]
      simp [okSizes]
    rw [min_eq_right (le_of_not_le hK), List.take_of_length_le (le_of_eq hlen2),
      List.take_of_length_le (by omega)]

theorem scan_sizes_are_topK_witness :
    ([⟨"r/b", 5000⟩, ⟨"r/c", 2000⟩] : List FileInfo).map FileInfo.size =
      (sortDescNat (okSizes [⟨"r/a", .ok 10⟩, ⟨"r/b", .ok 5000⟩,
        ⟨"r/c", .ok 2000⟩, ⟨"r/d", .ok 1⟩])).take 2 :=
  scan_sizes_are_topK 2 _ _ (by rfl)

theorem hasOsError_false_of_all {cs : List Candidate}
    (hall : ∀ c ∈ cs, statOk c.stat = true) : hasOsError cs = false := by
  rw [hasOsError, List.any_eq_false]
  intro c hc
  have := hall c hc
  cases hst : c.stat <;> simp [hst] <;> rw [hst] at this <;> simp [statOk] at this

theorem okPairs_length_of_all {cs : List Candidate}
    (hall : ∀ c ∈ cs, statOk c.stat = true) : (okPairs cs).length = cs.length := by
  induction cs with
  | nil => rfl
  | cons c rest ih =>
    have hc := hall c (List.mem_cons_self c rest)
    rw [okPairs_cons]
    cases hst : c.stat with
    | ok s =>
      simp only [List.length_cons]
      rw [ih fun x hx => hall x (List.mem_cons_of_mem c hx)]
    | denied => rw [hst] at hc; simp [statOk] at hc
    | oserror => rw [hst] at hc; simp [statOk] at hc

theorem scan_ok_of_noError {K : Nat} {cs : List Candidate}
    (hne : hasOsError cs = false) :
    DiskScanner.scan K cs = .ok ((topKAsc K (okPairs cs)).reverse.map fun e => ⟨e.2, e.1⟩) := by
  unfold DiskScanner.scan
  rw [scanHeap_eq, hne, if_neg Bool.false_ne_true]
  rfl

/-- C2: when every walked file can be `stat`-ed, `DiskScanner.scan` with
`max_results = K` returns normally, and the returned list has length
`min K N` where `N` is the number of walked files. -/
theorem scan_length_min (K : Nat) (cs : List Candidate)
    (hall : ∀ c ∈ cs, statOk c.stat = true) :
    ∃ r, DiskScanner.scan K cs = .ok r ∧ r.length = min K cs.length := by
  refine ⟨_, scan_ok_of_noError (hasOsError_false_of_all hall), ?_⟩
  rw [List.length_map, List.length_reverse, topKAsc_length, okPairs_length_of_all hall]

theorem scan_length_min_witness :
    ∃ r, DiskScanner.scan 5 [⟨"r/a", .ok 1⟩, ⟨"r/b", .ok 2⟩] = .ok r ∧
      r.length = min 5 ([⟨"r/a", .ok 1⟩, (⟨"r/b", .ok 2⟩ : Candidate)]).length :=
  scan_length_min 5 _ (by decide)

/-- The ordering the claim asserts for consecutive result pairs: sizes
nonincreasing, and on a size tie the paths in natural (ascending) string
order. -/
def specConsecOrder (a b : FileInfo) : Prop :=
  b.size ≤ a.size ∧ (a.size = b.size → pathLe a.path b.path = true)

instance : DecidableRel specConsecOrder := fun a b =>
  inferInstanceAs (Decidable (_ ∧ _))

/-- C3 counterexample: two files of equal size come back with their paths
in descending, not ascending, string order, because
`sorted(heap, reverse=True)` reverses the path tie-break as well. -/
theorem scan_tie_order_counterexample :
    DiskScanner.scan 2 [⟨"r/a", .ok 5⟩, ⟨"r/b", .ok 5⟩] =
        .ok [⟨"r/b", 5⟩, ⟨"r/a", 5⟩] ∧
      ¬ List.Chain' specConsecOrder [⟨"r/b", 5⟩, ⟨"r/a", 5⟩] := by
  constructor
  · rfl
  · intro hch
    have h1 := (List.chain'_cons.mp hch).1
    have h2 := h1.2 rfl
    exact absurd h2 (by decide)

/-- C3 amended: every consecutive pair of scan results is ordered by the
descending lexicographic `(size, path)` order — sizes nonincreasing, and
on a size tie the paths in reverse (descending) natural string order. -/
theorem scan_sorted_desc (K : Nat) (cs : List Candidate) (r : List FileInfo)
    (h : DiskScanner.scan K cs = .ok r) :
    List.Pairwise (fun a b => entryLE (entryOfInfo b) (entryOfInfo a)) r := by
  rw [scan_result_eq h]
  refine List.pairwise_map.mpr ?_
  refine List.pairwise_reverse.mpr ?_
  have hsorted : List.Pairwise entryLE (topKAsc K (okPairs cs)) :=
    (sortedAsc_sorted (okPairs cs)).sublist (List.drop_sublist _ _)
  exact hsorted.imp fun {a b} hab => hab

theorem scan_sorted_desc_witness :
    List.Pairwise (fun a b => entryLE (entryOfInfo b) (entryOfInfo a))
      [(⟨"r/b", 5⟩ : FileInfo), ⟨"r/a", 5⟩] :=
  scan_sorted_desc 2 [⟨"r/a", .ok 5⟩, ⟨"r/b", .ok 5⟩] _ (by rfl)

/-- C4: the candidate heap never holds more than `K` entries — after any
prefix of the walk its length is at most `K` — and once all `N`
candidates are processed with every `stat` succeeding and `N ≥ K`, the
heap holds exactly the `K` largest entries (its descending listing is the
first `K` of the full descending sort). -/
theorem scan_heap_invariant (K : Nat) (cs : List Candidate) :
    (∀ i h, scanHeap K (cs.take i) = .ok h → h.length ≤ K) ∧
      ((∀ c ∈ cs, statOk c.stat = true) → K ≤ cs.length →
        ∀ h, scanHeap K cs = .ok h →
          h.reverse = (sortDescE (okPairs cs)).take K ∧ h.length = K) := by
  constructor
  · intro i h hok
    rw [scanHeap_eq] at hok
    by_cases he : hasOsError (cs.take i)
    · rw [if_pos he] at hok; exact absurd hok (by simp)
    · rw [if_neg he] at hok
      have hh : h = topKAsc K (okPairs (cs.take i)) := (Except.ok.injEq _ _ ▸ hok).symm
      rw [hh, topKAsc_length]
      exact Nat.min_le_left _ _
  · intro hall hK h hok
    have hne := hasOsError_false_of_all hall
    rw [scanHeap_eq, hne, if_neg Bool.false_ne_true] at hok
    have hh : h = topKAsc K (okPairs cs) := (Except.ok.injEq _ _ ▸ hok).symm
    have hLes : (okPairs cs).length = cs.length := okPairs_length_of_all hall
    constructor
    · rw [hh]
      unfold topKAsc
      rw [List.reverse_drop, reverse_sortedAsc]
      have hlen : (sortedAsc (okPairs cs)).length = (okPairs cs).length :=
        (sortedAsc_perm _).length_eq
      rw [hlen]
      have hidx : (okPairs cs).length - ((okPairs cs).length - K) = K := by omega
      rw [hidx]
    · rw [hh, topKAsc_length]
      omega

theorem scan_heap_invariant_witness :
    (([(1, "r/a")] : List Entry).length ≤ 1) ∧
      (([(2, "r/b")] : List Entry).reverse =
          (sortDescE (okPairs [⟨"r/a", .ok 1⟩, ⟨"r/b", .ok 2⟩])).take 1 ∧
        ([(2, "r/b")] : List Entry).length = 1) :=
  ⟨(scan_heap_invariant 1 [⟨"r/a", .ok 1⟩, ⟨"r/b", .ok 2⟩]).1 1 _ (by rfl),
   (scan_heap_invariant 1 [⟨"r/a", .ok 1⟩, ⟨"r/b", .ok 2⟩]).2 (by decide) (by decide) _ (by rfl)⟩

/-- C5: every `FileInfo` returned by `FileSearch.search` satisfies all
supplied predicates conjunctively — a non-empty `name` is a
case-insensitive substring of the base name, a non-empty `extension` is a
case-insensitive suffix of the base name, and the size is at least
`min_size`; an empty predicate constrains nothing. -/
theorem search_conjunction (name extension : String) (minSize : Nat)
    (cs : List Candidate) (r : List FileInfo)
    (h : FileSearch.search name extension minSize cs = .ok r) :
    ∀ f ∈ r,
      (name ≠ "" → strContainsSub (strLower (baseName f.path)) (strLower name) = true) ∧
        (extension ≠ "" → strEndsWith (strLower (baseName f.path)) (strLower extension) = true) ∧
        minSize ≤ f.size := by
  induction cs generalizing r with
  | nil =>
    rw [FileSearch.search] at h
    cases h
    intro f hf
    simp at hf
  | cons c rest ih =>
    rw [FileSearch.search] at h
    by_cases h1 : name ≠ "" ∧ strContainsSub (strLower (baseName c.path)) (strLower name) = false
    · rw [if_pos h1] at h
      exact ih _ h
    · rw [if_neg h1] at h
      by_cases h2 : extension ≠ "" ∧
          strEndsWith (strLower (baseName c.path)) (strLower extension) = false
      · rw [if_pos h2] at h
        exact ih _ h
      · rw [if_neg h2] at h
        cases hst : c.stat with
        | denied => rw [hst] at h; dsimp only at h; exact ih _ h
        | oserror => rw [hst] at h; dsimp only at h; exact absurd h (by simp)
        | ok s =>
          rw [hst] at h
          dsimp only at h
          by_cases h3 : s < minSize
          · rw [if_pos h3] at h
            exact ih _ h
          · rw [if_neg h3] at h
            cases hrest : FileSearch.search name extension minSize rest with
            | error e => rw [hrest] at h; exact absurd h (by simp [Except.map])
            | ok r' =>
              rw [hrest] at h
              simp only [Except.map, Except.ok.injEq] at h
              subst h
              intro f hf
              rcases List.mem_cons.mp hf with rfl | hf'
              · refine ⟨?_, ?_, show minSize ≤ s by omega⟩
                · intro hne
                  cases hX : strContainsSub (strLower (baseName c.path)) (strLower name) with
                  | false => exact absurd ⟨hne, hX⟩ h1
                  | true => rfl
                · intro hne
                  cases hX : strEndsWith (strLower (baseName c.path)) (strLower extension) with
                  | false => exact absurd ⟨hne, hX⟩ h2
                  | true => rfl
              · exact ih _ hrest f hf'

theorem search_conjunction_witness :
    (("" : String) ≠ "" →
        strContainsSub (strLower (baseName "r/a.log")) (strLower "") = true) ∧
      ((".log" : String) ≠ "" →
        strEndsWith (strLower (baseName "r/a.log")) (strLower ".log") = true) ∧
      60 ≤ (100 : Nat) :=
  search_conjunction "" ".log" 60
    [⟨"r/a.log", .ok 100⟩, ⟨"r/b.txt", .ok 200⟩, ⟨"r/note.log", .ok 50⟩]
    [⟨"r/a.log", 100⟩] (by rfl) ⟨"r/a.log", 100⟩ (by simp)

/-- C6: `delete_files` returns exactly the paths whose removal succeeded,
as a subsequence of the input in input order; every failing path —
missing, permission-denied, or any other OS error — is skipped
individually and the function always returns normally. -/
theorem delete_files_spec (ps : List DeleteCandidate) :
    delete_files ps = (ps.filter fun c => c.res = .ok).map DeleteCandidate.path ∧
      List.Sublist (delete_files ps) (ps.map DeleteCandidate.path) := by
  have heq : delete_files ps = (ps.filter fun c => c.res = .ok).map DeleteCandidate.path := by
    induction ps with
    | nil => rfl
    | cons c rest ih =>
      rw [delete_files]
      by_cases hc : c.res = .ok
      · rw [if_pos hc, List.filter_cons_of_pos (by simpa using hc), List.map_cons, ih]
      · rw [if_neg hc, List.filter_cons_of_neg (by simpa using hc), ih]
  refine ⟨heq, ?_⟩
  rw [heq]
  exact (List.filter_sublist _).map _

/-- C7: when nothing in the filesystem lies under the root (in particular
when the root does not exist), both `scan` and `search` return an empty
list rather than raising. -/
theorem missing_root_empty (root : String) (K : Nat) (name extension : String)
    (minSize : Nat) (fs : List Candidate)
    (hroot : ∀ c ∈ fs, isUnder root c.path = false) :
    DiskScanner.scanFS root K fs = .ok [] ∧
      FileSearch.searchFS root name extension minSize fs = .ok [] := by
  have hwalk : walk_paths root fs = [] := by
    rw [walk_paths, List.filter_eq_nil_iff]
    intro c hc
    simp [hroot c hc]
  rw [DiskScanner.scanFS, FileSearch.searchFS, hwalk]
  exact ⟨rfl, rfl⟩

theorem missing_root_empty_witness :
    DiskScanner.scanFS "nope" 3 [⟨"other/a", .ok 5⟩] = .ok [] ∧
      FileSearch.searchFS "nope" "" "" 0 [⟨"other/a", .ok 5⟩] = .ok [] :=
  missing_root_empty "nope" 3 "" "" 0 [⟨"other/a", .ok 5⟩] (by decide)

/-- C8: with `max_results = 0` the scan returns the empty list whenever it
returns at all, and it does return (with the empty list) whenever no
`stat` raises an uncaught `OSError`. -/
theorem scan_zeroK (cs : List Candidate) :
    (∀ r, DiskScanner.scan 0 cs = .ok r → r = []) ∧
      (hasOsError cs = false → DiskScanner.scan 0 cs = .ok []) := by
  have htop : topKAsc 0 (okPairs cs) = [] := by
    unfold topKAsc
    apply List.drop_eq_nil_of_le
    rw [(sortedAsc_perm _).length_eq]
    omega
  constructor
  · intro r h
    rw [scan_result_eq h, htop]
    rfl
  · intro hne
    rw [scan_ok_of_noError hne, htop]
    rfl

theorem scan_zeroK_witness :
    (([] : List FileInfo) = []) ∧ DiskScanner.scan 0 [⟨"r/a", .ok 5⟩] = .ok [] :=
  ⟨(scan_zeroK [⟨"r/a", .ok 5⟩]).1 [] (by rfl),
   (scan_zeroK [⟨"r/a", .ok 5⟩]).2 (by rfl)⟩

/-- C10 (implicit): only `PermissionError` and `FileNotFoundError` are
caught around the per-candidate `stat`; any other `OSError` propagates and
aborts the whole `scan`/`search` call, while a denied entry is merely
skipped. -/
theorem stat_oserror_propagates :
    DiskScanner.scan 5 [⟨"r/x", .oserror⟩] = .error () ∧
      FileSearch.search "" "" 0 [⟨"r/x", .oserror⟩] = .error () ∧
      DiskScanner.scan 5 [⟨"r/x", .denied⟩] = .ok [] ∧
      FileSearch.search "" "" 0 [⟨"r/x", .denied⟩] = .ok [] :=
  ⟨rfl, rfl, rfl, rfl⟩

theorem search_ok_eq (name extension : String) (minSize : Nat) :
    ∀ (cs : List Candidate) (r : List FileInfo),
      FileSearch.search name extension minSize cs = .ok r →
      r = cs.filterMap (searchMatch name extension minSize) := by
  intro cs
  induction cs with
  | nil =>
    intro r h
    rw [FileSearch.search] at h
    cases h
    rfl
  | cons c rest ih =>
    intro r h
    rw [FileSearch.search] at h
    rw [List.filterMap_cons]
    by_cases h1 : name ≠ "" ∧ strContainsSub (strLower (baseName c.path)) (strLower name) = false
    · rw [if_pos h1] at h
      have hm : searchMatch name extension minSize c = none := by
        unfold searchMatch
        rw [if_pos h1]
      rw [hm]
      exact ih r h
    · rw [if_neg h1] at h
      by_cases h2 : extension ≠ "" ∧
          strEndsWith (strLower (baseName c.path)) (strLower extension) = false
      · rw [if_pos h2] at h
        have hm : searchMatch name extension minSize c = none := by
          unfold searchMatch
          rw [if_neg h1, if_pos h2]
        rw [hm]
        exact ih r h
      · rw [if_neg h2] at h
        cases hst : c.stat with
        | denied =>
          rw [hst] at h
          dsimp only at h
          have hm : searchMatch name extension minSize c = none := by
            unfold searchMatch
            rw [if_neg h1, if_neg h2, hst]
          rw [hm]
          exact ih r h
        | oserror =>
          rw [hst] at h
          dsimp only at h
          exact absurd h (by simp)
        | ok s =>
          rw [hst] at h
          dsimp only at h
          by_cases h3 : s < minSize
          · rw [if_pos h3] at h
            have hm : searchMatch name extension minSize c = none := by
              unfold searchMatch
              rw [if_neg h1, if_neg h2, hst]
              dsimp only
              rw [if_pos h3]
            rw [hm]
            exact ih r h
          · rw [if_neg h3] at h
            cases hrest : FileSearch.search name extension minSize rest with
            | error e =>
              rw [hrest] at h
              exact absurd h (by simp [Except.map])
            | ok r' =>
              rw [hrest] at h
              simp only [Except.map, Except.ok.injEq] at h
              subst h
              have hm : searchMatch name extension minSize c = some ⟨c.path, s⟩ := by
                unfold searchMatch
                rw [if_neg h1, if_neg h2, hst]
                dsimp only
                rw [if_neg h3]
              rw [hm, ih r' hrest]

theorem hasOsError_perm {cs cs' : List Candidate} (hperm : List.Perm cs cs') :
    hasOsError cs = hasOsError cs' := by
  cases hv : hasOsError cs' with
  | true =>
    rw [hasOsError, List.any_eq_true]
    rw [hasOsError, List.any_eq_true] at hv
    obtain ⟨c, hc, hco⟩ := hv
    exact ⟨c, hperm.mem_iff.mpr hc, hco⟩
  | false =>
    rw [hasOsError, List.any_eq_false]
    rw [hasOsError, List.any_eq_false] at hv
    intro c hc
    exact hv c (hperm.mem_iff.mp hc)

/-- C9 counterexample: against the same set of files walked in a
different order, `FileSearch.search` returns a differently ordered list,
so its result list is not independent of traversal order. -/
theorem search_order_dependent_counterexample :
    List.Perm [(⟨"r/a", .ok 1⟩ : Candidate), ⟨"r/b", .ok 2⟩]
        [⟨"r/b", .ok 2⟩, ⟨"r/a", .ok 1⟩] ∧
      FileSearch.search "" "" 0 [⟨"r/a", .ok 1⟩, ⟨"r/b", .ok 2⟩] =
        .ok [⟨"r/a", 1⟩, ⟨"r/b", 2⟩] ∧
      FileSearch.search "" "" 0 [⟨"r/b", .ok 2⟩, ⟨"r/a", .ok 1⟩] =
        .ok [⟨"r/b", 2⟩, ⟨"r/a", 1⟩] ∧
      ([(⟨"r/a", 1⟩ : FileInfo), ⟨"r/b", 2⟩] ≠ [⟨"r/b", 2⟩, ⟨"r/a", 1⟩]) :=
  ⟨List.Perm.swap _ _ _, rfl, rfl, by decide⟩

/-- C9 amended: both operations are deterministic functions of the walked
files as a multiset — `scan`'s entire result list is invariant under
traversal reordering, while `search`'s result list follows traversal
order and is invariant only up to permutation. -/
theorem scan_search_deterministic (K : Nat) (cs cs' : List Candidate)
    (hperm : List.Perm cs cs') :
    DiskScanner.scan K cs = DiskScanner.scan K cs' ∧
      ∀ name extension minSize r r',
        FileSearch.search name extension minSize cs = .ok r →
        FileSearch.search name extension minSize cs' = .ok r' →
        List.Perm r r' := by
  constructor
  · have hok : List.Perm (okPairs cs) (okPairs cs') := hperm.filterMap _
    unfold DiskScanner.scan
    rw [scanHeap_eq, scanHeap_eq, hasOsError_perm hperm, topKAsc_congr hok]
  · intro name extension minSize r r' hr hr'
    rw [search_ok_eq name extension minSize cs r hr,
      search_ok_eq name extension minSize cs' r' hr']
    exact hperm.filterMap _

theorem scan_search_deterministic_witness :
    DiskScanner.scan 1 [⟨"r/a", .ok 1⟩, ⟨"r/b", .ok 2⟩] =
        DiskScanner.scan 1 [⟨"r/b", .ok 2⟩, ⟨"r/a", .ok 1⟩] ∧
      List.Perm [(⟨"r/a", 1⟩ : FileInfo), ⟨"r/b", 2⟩] [⟨"r/b", 2⟩, ⟨"r/a", 1⟩] :=
  ⟨(scan_search_deterministic 1 [⟨"r/a", .ok 1⟩, ⟨"r/b", .ok 2⟩]
      [⟨"r/b", .ok 2⟩, ⟨"r/a", .ok 1⟩] (List.Perm.swap _ _ _)).1,
   (scan_search_deterministic 1 [⟨"r/a", .ok 1⟩, ⟨"r/b", .ok 2⟩]
      [⟨"r/b", .ok 2⟩, ⟨"r/a", .ok 1⟩] (List.Perm.swap _ _ _)).2
     "" "" 0 _ _ (by rfl) (by rfl)⟩
